import Mathlib

/-!
# `slack_coins.go`: watch registry, alert scheduler and command handler

A shallow embedding of `src/slack_coins.go`.

* A finite `float64` / `float32` value is its exact rational value (`ℚ`). The float64
  subtraction of line 295 and the conversion `float64(sym.Threshold)` of line 297 round
  to the nearest float64, ties to even (`f64round`), and overflow to an infinity (`F64`).
  No operation of the code yields a NaN from finite values; the sign of a zero is not
  represented.
* Go `int` is modelled by `Int`; `strconv.Atoi` rejects values outside the 64-bit range.
* A run-time panic is an `Except.error`; goroutines spawned by the handler are run to
  completion in place, and an unrecovered panic sets `crashed`.
* The market-data provider is a function from the filter string to a fetch result.
* The Go map `WatchList` is an association list traversed in list order (Go leaves the
  order of `range` over a map unspecified).
-/

namespace SlackCoins

/-! ## Data model -/

/-- The struct `TickerData` (lines 71-86). -/
structure TickerData where
  Id : String
  Name : String
  Symbol : String
  Rank : Int
  PriceUSD : ℚ
  PriceBTC : ℚ
  Volume24H : ℚ
  MarketCapUSD : ℚ
  AvailableSupply : ℚ
  TotalSupply : ℚ
  PercentChange1H : ℚ
  PercentChange24H : ℚ
  PercentChange7D : ℚ
  LastUpdated : Int
  deriving DecidableEq

/-- The struct `Watch` (lines 55-60). -/
structure Watch where
  Channel : String
  Name : String
  lastPrice : ℚ
  Threshold : Int
  deriving DecidableEq

/-- Modelled from the spec: the struct `Message` is declared in another file of the
repository; the spec gives an inbound message the fields channel, text and type, and
`slack_coins.go` uses exactly `Type` (here `Type_`), `Channel` and `Text`. -/
structure Message where
  Type_ : String
  Channel : String
  Text : String
  deriving DecidableEq

/-- A non-nil Go slice: `elems` are the `len` visible elements, `spare` the cells of the
backing array between `len` and `cap`. -/
structure Slice (α : Type) where
  elems : List α
  spare : List α
  deriving DecidableEq

/-- A value of type `[]TickerData`; `none` is the nil slice. -/
abbrev Tickers := Option (Slice TickerData)

/-- The visible elements of a slice value (`range v`); nil has none. -/
def Tickers.toList : Tickers → List TickerData
  | none => []
  | some s => s.elems

/-- The pair `(result, err)` returned by `FetchCoins` (lines 92-113): callers never read
`result` when `err != nil`. -/
inductive FetchResult where
  | err
  | ok (v : Tickers)
  deriving DecidableEq

/-- The interface `TickersPipeline` (lines 43-45): the provider answers a filter string. -/
abbrev TickersPipeline := String → FetchResult

/-- Run-time panics raised by the code. -/
inductive Panic where
  | indexOutOfRange
  | sliceBoundsOutOfRange
  deriving DecidableEq

deriving instance DecidableEq for Except

/-- The index expression `(v)[0]`. -/
def index0 (v : Tickers) : Except Panic TickerData :=
  match v.toList with
  | [] => .error .indexOutOfRange
  | t :: _ => .ok t

/-- The index expression `parts[i]` on a `[]string`. -/
def indexStr (parts : List String) (i : Nat) : Except Panic String :=
  match parts[i]? with
  | none => .error .indexOutOfRange
  | some s => .ok s

/-! ## The map `WatchList` (line 62) -/

/-- The type `WatchList`: `map[string]*Watch`. -/
abbrev WatchList := List (String × Watch)

/-- The map read `watchList[k]`. -/
def mapGet (k : String) : WatchList → Option Watch
  | [] => none
  | (k', w) :: rest => if k' = k then some w else mapGet k rest

/-- The map write `watchList[k] = &w`: replaces the binding of `k` or adds one. -/
def mapSet (k : String) (w : Watch) : WatchList → WatchList
  | [] => [(k, w)]
  | (k', w') :: rest => if k' = k then (k, w) :: rest else (k', w') :: mapSet k w rest

/-- The builtin `delete(watchList, k)`. -/
def mapDelete (k : String) : WatchList → WatchList
  | [] => []
  | (k', w) :: rest => if k' = k then mapDelete k rest else (k', w) :: mapDelete k rest

/-! ## Library functions -/

/-- Lower-casing of one rune, ASCII letters only. -/
def lowerChar (c : Char) : Char :=
  if 'A' ≤ c ∧ c ≤ 'Z' then Char.ofNat (c.toNat + 32) else c

/-- The function `strings.ToLower`, on ASCII letters; other runes are kept. No proof below
unfolds it except to evaluate it at a concrete string. -/
def ToLower (s : String) : String := ⟨s.data.map lowerChar⟩

/-- White space as `unicode.IsSpace` defines it. -/
def isSpace (c : Char) : Bool :=
  let n := c.toNat
  (9 ≤ n && n ≤ 13) || n = 32 || n = 133 || n = 160 || n = 5760 ||
  (8192 ≤ n && n ≤ 8202) || n = 8232 || n = 8233 || n = 8239 || n = 8287 || n = 12288

/-- Worker of `Fields`: `cur` is the field being read. -/
def fieldsAux (cur : List Char) : List Char → List String
  | [] => if cur = [] then [] else [⟨cur⟩]
  | c :: cs =>
    if isSpace c then
      (if cur = [] then fieldsAux [] cs else ⟨cur⟩ :: fieldsAux [] cs)
    else fieldsAux (cur ++ [c]) cs

/-- The function `strings.Fields`: the maximal runs of non-space runes. -/
def Fields (s : String) : List String := fieldsAux [] s.data

/-- The function `strings.HasPrefix`. -/
def HasPrefix (s pre : String) : Bool := pre.data.isPrefixOf s.data

/-- Value of a run of decimal digits; `none` when empty or when a rune is no digit. -/
def parseDigits (cs : List Char) : Option Nat :=
  if cs = [] then none
  else cs.foldl (fun acc c => acc.bind fun n =>
    if '0' ≤ c ∧ c ≤ '9' then some (n * 10 + (c.toNat - 48)) else none) (some 0)

/-- The function `strconv.Atoi` for a 64-bit `int`: an optional sign, then decimal digits;
`none` stands for a non-nil error. -/
def Atoi (s : String) : Option Int :=
  let r : Option Int :=
    match s.data with
    | '-' :: ds => (parseDigits ds).map fun n => -(n : Int)
    | '+' :: ds => (parseDigits ds).map fun n => (n : Int)
    | ds => (parseDigits ds).map fun n => (n : Int)
  r.bind fun v => if -(2 : Int) ^ 63 ≤ v ∧ v < (2 : Int) ^ 63 then some v else none

/-- Pads on the left with spaces to `width` runes, as `fmt` does for a width. -/
def padLeft (width : Nat) (s : String) : String :=
  ⟨List.replicate (width - s.data.length) ' ' ++ s.data⟩

/-- Rounds a non-negative rational to the nearest integer, ties to even. -/
def roundHalfEven (q : ℚ) : Int :=
  let f := ⌊q⌋
  let r := q - f
  if r < 1 / 2 then f else if 1 / 2 < r then f + 1 else if f % 2 = 0 then f else f + 1

/-- The verbs `%2.2f`, `%3.2f`, `%4.2f` (and `%+2.2f` when `plus`): two decimals; the
width never pads since the output has at least four runes. -/
def fmtF2 (plus : Bool) (q : ℚ) : String :=
  let n : Nat := (roundHalfEven (|q| * 100)).toNat
  let sign := if q < 0 then "-" else if plus then "+" else ""
  sign ++ toString (n / 100) ++ "." ++ toString (n % 100 / 10) ++ toString (n % 10)

/-- The verb `%2d`. -/
def fmtD2 (n : Int) : String := padLeft 2 (toString n)

/-- The verb `%1s`. -/
def fmtS1 (s : String) : String := padLeft 1 s

/-- String concatenation of a list, left to right. -/
def concat (l : List String) : String := l.foldl (· ++ ·) ""

/-! ## `float64` arithmetic -/

/-- The result of a float64 operation on finite values: a finite value, given exactly, or
an infinity. -/
inductive F64 where
  | finite (q : ℚ)
  | inf (negative : Bool)
  deriving DecidableEq

/-- Binary logarithm of a positive natural number, rounded down; `fuel` bounds the number
of halvings. -/
def log2Nat : Nat → Nat → Nat
  | 0, _ => 0
  | fuel + 1, n => if 2 ≤ n then log2Nat fuel (n / 2) + 1 else 0

/-- Rounding of an exact result to float64 (IEEE 754 binary64, round to nearest, ties to
even): 53 significant bits, least exponent `-1074`, and an infinity from `2 ^ 1024` on. -/
def f64round (q : ℚ) : F64 :=
  if q = 0 then .finite 0
  else
    let n : Nat := q.num.natAbs
    let d : Nat := q.den
    let k : Int := (log2Nat n n : Int) - (log2Nat d d : Int)
    let fl : Int :=
      if (if 0 ≤ k then d * 2 ^ k.toNat ≤ n else d ≤ n * 2 ^ (-k).toNat) then k else k - 1
    let e : Int := max (fl - 52) (-1074)
    let N : Nat := if e < 0 then n * 2 ^ (-e).toNat else n
    let D : Nat := if e < 0 then d else d * 2 ^ e.toNat
    let m0 : Nat := N / D
    let r : Nat := N % D
    let m : Nat :=
      if 2 * r < D then m0 else if D < 2 * r then m0 + 1 else if m0 % 2 = 0 then m0 else m0 + 1
    let v : ℚ :=
      if e < 0 then (m : ℚ) / ((2 ^ (-e).toNat : Nat) : ℚ) else ((m * 2 ^ e.toNat : Nat) : ℚ)
    if ((2 ^ 1024 : Nat) : ℚ) ≤ v then .inf (decide (q < 0))
    else .finite (if q < 0 then -v else v)

/-- The float64 subtraction `a - b` of two finite values. -/
def f64sub (a b : ℚ) : F64 := f64round (a - b)

/-- The conversion `float64(n)` of an `int`. -/
def f64ofInt (n : Int) : F64 := f64round (n : ℚ)

/-- The function `math.Abs`. -/
def F64.abs : F64 → F64
  | .finite q => .finite |q|
  | .inf _ => .inf false

/-- The float64 comparison `a > b`. -/
def F64.gt : F64 → F64 → Bool
  | .finite a, .finite b => decide (a > b)
  | .finite _, .inf negative => negative
  | .inf negative, .finite _ => !negative
  | .inf a, .inf b => !a && b

/-- The verb `%+2.2f` applied to a float64 result: an infinity prints as `+Inf` or `-Inf`. -/
def fmtDelta : F64 → String
  | .finite q => fmtF2 true q
  | .inf false => "+Inf"
  | .inf true => "-Inf"

/-! ## The scheduler goroutine (lines 285-308) -/

/-- The alert built at lines 298-302. -/
def alertMessage (sym : Watch) (t : TickerData) (delta : F64) : Message :=
  { Channel := sym.Channel
    Type_ := "message"
    Text := "[ " ++ fmtS1 t.Symbol ++ " ] $" ++ fmtDelta delta ++ " to $" ++
      fmtF2 false t.PriceUSD }

/-- The body of the inner loop (lines 288-305) for one watch `sym`: the watch afterwards
and the messages posted, or the panic that ends the goroutine. -/
def schedulerStep (mkt : TickersPipeline) (sym : Watch) : Except Panic (Watch × List Message) :=
  match mkt sym.Name with
  | .err => .ok (sym, [])
  | .ok v => do
    let posted ←
      if v.isSome ∧ sym.lastPrice > 0 then do
        let t ← index0 v
        let delta := f64sub t.PriceUSD sym.lastPrice
        if (F64.abs delta).gt (f64ofInt sym.Threshold) = true then
          pure [alertMessage sym t delta]
        else pure []
      else pure []
    let t ← index0 v
    pure ({ sym with lastPrice := t.PriceUSD }, posted)

/-- The state after one firing of the ticker. -/
structure CycleResult where
  watches : WatchList
  posted : List Message
  crashed : Bool
  deriving DecidableEq

/-- One cycle, `for key, sym := range watchList` (lines 287-306): a panic leaves the
remaining watches untouched and ends the process. -/
def schedulerCycle (mkt : TickersPipeline) : WatchList → CycleResult
  | [] => ⟨[], [], false⟩
  | (key, sym) :: rest =>
    match schedulerStep mkt sym with
    | .error _ => ⟨(key, sym) :: rest, [], true⟩
    | .ok (sym', msgs) =>
      let r := schedulerCycle mkt rest
      ⟨(key, sym') :: r.watches, msgs ++ r.posted, r.crashed⟩

/-! ## Quotes and ranking (lines 317-369) -/

/-- The verb `%1v` applied to a `[]string`: the elements, each with width 1, between
square brackets and separated by blanks. -/
def fmtV1 (sym : List String) : String :=
  "[" ++ " ".intercalate (sym.map fmtS1) ++ "]"

/-- The line appended at lines 331-332 for one ticker. -/
def quoteLine (coin : TickerData) : String :=
  fmtS1 coin.Symbol ++ " $" ++ fmtF2 false coin.PriceUSD ++ ", update 1H: " ++
    fmtF2 false coin.PercentChange1H ++ "%, update 24H: " ++
    fmtF2 false coin.PercentChange24H ++ "%\n"

/-- The function `getQuote` (lines 317-344). The map `set` is the list of its keys. -/
def getQuote (mkt : TickersPipeline) (sym : List String) : String :=
  let set := sym.map ToLower
  match mkt "" with
  | .ok (some coins) =>
    if coins.elems.length > 0 then
      let st := coins.elems.foldl
        (fun (st : Bool × String) coin =>
          if ToLower coin.Symbol ∈ set then (true, st.2 ++ quoteLine coin) else st)
        (false, "")
      if st.1 then st.2 else "'" ++ fmtV1 sym ++ "' not found"
    else "n/a"
  | _ => "n/a"

/-- The call `sort.Slice(coins, less)`. Go leaves the order of elements that `less` does
not separate unspecified; the model is an insertion sort, one of the allowed results. -/
def sortSlice {α : Type} (less : α → α → Bool) (l : List α) : List α :=
  l.insertionSort (fun a b => less b a = false)

/-- The slice expression `s[:hi]`: it panics unless `0 <= hi <= cap(s)`, and may reach
into the spare cells. -/
def sliceTo {α : Type} (s : Slice α) (hi : Int) : Except Panic (List α) :=
  if 0 ≤ hi ∧ hi ≤ ((s.elems.length + s.spare.length : Nat) : Int) then
    .ok ((s.elems ++ s.spare).take hi.toNat)
  else .error .sliceBoundsOutOfRange

/-- The local function `min` of `rankCoins` (lines 347-353). -/
def minInt (l r : Int) : Int := if l < r then l else r

/-- The row appended at line 362 for one ticker. -/
def rankRow (v : TickerData) : String :=
  fmtS1 v.Name ++ " : " ++ padLeft 2 v.Symbol ++ " => price: $" ++ fmtF2 false v.PriceUSD ++
    " : market: $" ++ fmtF2 false v.MarketCapUSD ++ "\n"

/-- The function `rankCoins` (lines 346-369). -/
def rankCoins (mkt : TickersPipeline) (limit : Int) : Except Panic String :=
  match mkt "" with
  | .ok (some coins) =>
    if coins.elems.length > 0 then do
      let sorted : Slice TickerData :=
        ⟨sortSlice (fun l r => decide (l.MarketCapUSD > r.MarketCapUSD)) coins.elems,
          coins.spare⟩
      let top ← sliceTo sorted (minInt limit 30)
      pure (top.foldl (fun resp v => resp ++ rankRow v) "")
    else pure "n/a"
  | _ => pure "n/a"

/-! ## The message handler (lines 166-268) -/

/-- What `json.Marshal(&w)` writes for a `Watch`: the exported fields `channel`, `name` and
`threshold` (`lastPrice` is unexported and left out). -/
structure StoredWatch where
  channel : String
  name : String
  threshold : Int
  deriving DecidableEq

/-- A write to the bucket `watchlist` of the store. -/
inductive DbOp where
  | put (key : String) (value : StoredWatch)
  | delete (key : String)
  deriving DecidableEq

/-- What handling one message does: the registry afterwards, the messages posted, the
store writes, and whether an unrecovered panic ended the process. -/
structure Effects where
  watchList : WatchList
  posted : List Message
  db : List DbOp
  crashed : Bool
  deriving DecidableEq

/-- The text set by `helpF` (lines 167-172). -/
def helpText : String :=
  "Commands: \n" ++
  "*coin <symbol symbol ...>* - get coin stats \n" ++
  "*rank <n>* - get top N records sorted by price\n" ++
  "*watch symbol threshold* - watch coin price change\n" ++
  "*unwatch symbol* - unwatch coin\n" ++
  "*watchlist* - list current watched coins"

/-- The message posted by `helpF`. -/
def helpF (m : Message) : Message := { m with Text := helpText }

/-- One entry of the `watchlist` reply, `Sprintf("\x7b %1s:%2d \x7d", k, v.Threshold)`. -/
def watchEntry (k : String) (threshold : Int) : String :=
  "\x7b " ++ fmtS1 k ++ ":" ++ fmtD2 threshold ++ " \x7d"

/-- The text of the `watchlist` reply (lines 241-245). -/
def watchlistText (wl : WatchList) : String :=
  wl.foldl (fun msg e => msg ++ watchEntry e.1 e.2.Threshold) "Tickers: [ " ++ "]"

/-- The `watch` case once the threshold `r > 0` is parsed (lines 191-226); `key` is the
lower-cased `parts[2]`. -/
def watchCase (mkt : TickersPipeline) (wl : WatchList) (m : Message) (key : String)
    (r : Int) : Effects :=
  match mkt "" with
  | .ok v =>
    match v.toList.find? (fun c => decide (ToLower c.Symbol = key)) with
    | some coin =>
      let w : Watch :=
        { Channel := m.Channel, Name := coin.Name, lastPrice := coin.PriceUSD, Threshold := r }
      ⟨mapSet key w wl, [], [.put (ToLower coin.Symbol) ⟨w.Channel, w.Name, w.Threshold⟩],
        false⟩
    | none => ⟨wl, [{ m with Text := "Coin '" ++ key ++ "' does not exist" }], [], false⟩
  | .err => ⟨wl, [{ m with Text := "Cannot fetch coins" }], [], false⟩

/-- The body of `msgF` (lines 183-267) up to the deferred `recv`: an `error` is a panic
raised in the handler itself. The goroutines of `coin`, `rank` and `helpF` are run in
place; the one of `rank` has no deferred `recv`, so a panic of `rankCoins` ends the
process. -/
def msgBody (id : String) (mkt : TickersPipeline) (wl : WatchList) (m : Message) :
    Except Panic Effects :=
  if m.Type_ = "message" ∧ HasPrefix m.Text ("<@" ++ id ++ ">") = true then do
    let parts := Fields m.Text
    let cmd ← indexStr parts 1
    if cmd = "watch" then
      if parts.length ≠ 4 then pure ⟨wl, [helpF m], [], false⟩
      else do
        let p3 ← indexStr parts 3
        let p2 ← indexStr parts 2
        let bad : Effects :=
          ⟨wl, [{ m with Text := "Cannot parse threshold " ++ p3 }], [], false⟩
        match Atoi p3 with
        | some r => if r > 0 then pure (watchCase mkt wl m (ToLower p2) r) else pure bad
        | none => pure bad
    else if cmd = "unwatch" then do
      let p2 ← indexStr parts 2
      pure ⟨mapDelete p2 wl, [], [.delete p2], false⟩
    else if cmd = "watchlist" then
      pure ⟨wl, [{ m with Text := watchlistText wl }], [], false⟩
    else if cmd = "coin" then
      pure ⟨wl, [{ m with Text := getQuote mkt (parts.drop 2) }], [], false⟩
    else if cmd = "rank" then do
      let p2 ← indexStr parts 2
      let r := (Atoi p2).getD 10
      match rankCoins mkt r with
      | .ok text => pure ⟨wl, [{ m with Text := text }], [], false⟩
      | .error _ => pure ⟨wl, [], [], true⟩
    else pure ⟨wl, [helpF m], [], false⟩
  else pure ⟨wl, [], [], false⟩

/-- The closure `msgF` with its deferred `recv` (lines 176-182): a panic of the handler is
recovered and answered by `go helpF(m)`. -/
def msgF (id : String) (mkt : TickersPipeline) (wl : WatchList) (m : Message) : Effects :=
  match msgBody id mkt wl m with
  | .ok e => e
  | .error _ => ⟨wl, [helpF m], [], false⟩

/-! ## Concrete inputs -/

/-- A ticker with the given name, symbol, USD price and market capitalisation. -/
def mkTicker (name sym : String) (price cap : ℚ) : TickerData :=
  { Id := ToLower name, Name := name, Symbol := sym, Rank := 1, PriceUSD := price,
    PriceBTC := 0, Volume24H := 0, MarketCapUSD := cap, AvailableSupply := 0,
    TotalSupply := 0, PercentChange1H := 0, PercentChange24H := 0, PercentChange7D := 0,
    LastUpdated := 0 }

/-- A provider that knows Bitcoin alone, at the given price. -/
def bitcoinAt (price : ℚ) : TickersPipeline := fun filter =>
  if filter = "Bitcoin" ∨ filter = "" then .ok (some ⟨[mkTicker "Bitcoin" "BTC" price 1000], []⟩)
  else .err

/-- A Bitcoin watch of channel `C1` with threshold 5. -/
def bitcoinWatch (last : ℚ) : Watch :=
  { Channel := "C1", Name := "Bitcoin", lastPrice := last, Threshold := 5 }

/-- The float64 nearest to the decimal `0.01`. -/
def f64_0_01 : ℚ := 5764607523034235 / 576460752303423488

/-- The float64 nearest to the decimal `1.01`. -/
def f64_1_01 : ℚ := 4548635623644201 / 4503599627370496

/-- A watch of channel `C1` with last price `float64(0.01)` and threshold 1. -/
def centWatch : Watch :=
  { Channel := "C1", Name := "Cent", lastPrice := f64_0_01, Threshold := 1 }

/-- A provider that knows the coin `Cent` at the price `float64(1.01)`. -/
def centProvider : TickersPipeline := fun _ =>
  .ok (some ⟨[mkTicker "Cent" "CNT" f64_1_01 1000], []⟩)

/-- A provider whose every fetch succeeds with an empty, non-nil list (the JSON `[]`). -/
def emptyProvider : TickersPipeline := fun _ => .ok (some ⟨[], []⟩)

/-- A provider that fails for the filter `Ether` and knows Bitcoin at 110. -/
def etherDown : TickersPipeline := fun filter =>
  if filter = "Ether" then .err else bitcoinAt 110 filter

/-- An Ether watch of channel `C2` with threshold 1 and last price 10. -/
def etherWatch : Watch :=
  { Channel := "C2", Name := "Ether", lastPrice := 10, Threshold := 1 }

/-! ## Vocabulary of the statements about `getQuote` -/

/-- The fetched tickers that `getQuote` prints for the request `sym`: those whose
lower-cased symbol is a key of `set`. -/
def quoteHits (coins : List TickerData) (sym : List String) : List TickerData :=
  coins.filter (fun c => decide (ToLower c.Symbol ∈ sym.map ToLower))

/-- The number of lines of a reply: every formatted line ends with one newline. -/
def lineCount (text : String) : Nat := text.data.count '\n'

/-- The requested symbols that equal some ticker's symbol case-insensitively. -/
def matchedSymbols (coins : List TickerData) (sym : List String) : List String :=
  sym.filter (fun s => coins.any (fun c => decide (ToLower c.Symbol = ToLower s)))

/-! ## More concrete inputs -/

/-- Two tickers that share the symbol `BTC` up to case. -/
def sharedSymbol : List TickerData :=
  [mkTicker "Bitcoin" "BTC" 100 50, mkTicker "Bcash" "btc" 3 60]

/-- A provider that returns `sharedSymbol` whatever the filter. -/
def sharedSymbolProvider : TickersPipeline := fun _ => .ok (some ⟨sharedSymbol, []⟩)

/-- Bitcoin, Ether and Ripple with distinct symbols. -/
def threeCoins : List TickerData :=
  [mkTicker "Bitcoin" "BTC" 100 50, mkTicker "Ether" "ETH" 10 70, mkTicker "Ripple" "XRP" 1 60]

/-- A provider that returns `threeCoins` whatever the filter. -/
def threeCoinsProvider : TickersPipeline := fun _ => .ok (some ⟨threeCoins, []⟩)

end SlackCoins

namespace SlackCoins

/-! ## Scheduler -/

/-- C1, amended: for a watch with last price `P` and threshold `T` and a successful fetch
whose first ticker has price `P'`, the iteration posts at most one message, every posted
message goes to the watch's channel, exactly one is posted iff `P > 0` and the float64
comparison `math.Abs(P' - P) > float64(T)` holds, where `P' - P` is the rounded float64
difference (strict: a rounded difference equal to `float64(T)` posts nothing, and `P <= 0`
never posts); whenever the difference and the threshold are float64 values themselves
this is `P > 0` and `|P' - P| > T` in exact arithmetic; and the watch's `lastPrice` is
`P'` afterwards with its other fields kept. -/
theorem schedulerStep_alert_iff (mkt : TickersPipeline) (sym : Watch) (t : TickerData)
    (rest spare : List TickerData)
    (hfetch : mkt sym.Name = .ok (some ⟨t :: rest, spare⟩)) :
    ∃ posted : List Message,
      schedulerStep mkt sym = .ok ({ sym with lastPrice := t.PriceUSD }, posted) ∧
      (posted.length = 1 ↔
        (sym.lastPrice > 0 ∧
          (F64.abs (f64sub t.PriceUSD sym.lastPrice)).gt (f64ofInt sym.Threshold) = true)) ∧
      posted.length ≤ 1 ∧ (∀ m ∈ posted, m.Channel = sym.Channel) ∧
      (f64round (t.PriceUSD - sym.lastPrice) = .finite (t.PriceUSD - sym.lastPrice) →
        f64round (sym.Threshold : ℚ) = .finite (sym.Threshold : ℚ) →
        (posted.length = 1 ↔
          (sym.lastPrice > 0 ∧ |t.PriceUSD - sym.lastPrice| > (sym.Threshold : ℚ)))) := by
  have hexact : f64round (t.PriceUSD - sym.lastPrice) = .finite (t.PriceUSD - sym.lastPrice) →
      f64round (sym.Threshold : ℚ) = .finite (sym.Threshold : ℚ) →
      ((F64.abs (f64sub t.PriceUSD sym.lastPrice)).gt (f64ofInt sym.Threshold) = true ↔
        |t.PriceUSD - sym.lastPrice| > (sym.Threshold : ℚ)) := by
    intro hd hT
    simp [f64sub, f64ofInt, hd, hT, F64.abs, F64.gt]
  by_cases h1 : sym.lastPrice > 0
  · by_cases h2 : (F64.abs (f64sub t.PriceUSD sym.lastPrice)).gt (f64ofInt sym.Threshold) = true
    · refine ⟨[alertMessage sym t (f64sub t.PriceUSD sym.lastPrice)], ?_, ?_, ?_, ?_, ?_⟩
      · simp [schedulerStep, hfetch, index0, Tickers.toList, h1, h2, bind, Except.bind, pure,
          Except.pure]
      · simp [h1, h2]
      · simp
      · simp [alertMessage]
      · intro hd hT
        have := (hexact hd hT).mp h2
        simp [h1, this]
    · refine ⟨[], ?_, ?_, ?_, ?_, ?_⟩
      · simp [schedulerStep, hfetch, index0, Tickers.toList, h1, h2, bind, Except.bind, pure,
          Except.pure]
      · simp [h2]
      · simp
      · simp
      · intro hd hT
        have hn : ¬ |t.PriceUSD - sym.lastPrice| > (sym.Threshold : ℚ) :=
          fun h => h2 ((hexact hd hT).mpr h)
        simp only [List.length_nil, Nat.zero_ne_one, false_iff, not_and]
        exact fun _ => hn
  · refine ⟨[], ?_, ?_, ?_, ?_, ?_⟩
    · simp [schedulerStep, hfetch, h1, index0, Tickers.toList, bind, Except.bind, pure,
        Except.pure]
    · simp [h1]
    · simp
    · simp
    · intro _ _
      simp [h1]

/-- Witness of C1 at `P = 100`, `T = 5`, `P' = 103`. -/
theorem schedulerStep_alert_iff_witness :
    bitcoinAt 103 (bitcoinWatch 100).Name =
        .ok (some ⟨mkTicker "Bitcoin" "BTC" 103 1000 :: [], []⟩) ∧
      ∃ posted : List Message,
        schedulerStep (bitcoinAt 103) (bitcoinWatch 100) =
          .ok ({ bitcoinWatch 100 with
                  lastPrice := (mkTicker "Bitcoin" "BTC" 103 1000).PriceUSD }, posted) ∧
        (posted.length = 1 ↔
          ((bitcoinWatch 100).lastPrice > 0 ∧
            (F64.abs (f64sub (mkTicker "Bitcoin" "BTC" 103 1000).PriceUSD
              (bitcoinWatch 100).lastPrice)).gt (f64ofInt (bitcoinWatch 100).Threshold) =
                true)) :=
  ⟨by decide!,
    match schedulerStep_alert_iff (bitcoinAt 103) (bitcoinWatch 100)
      (mkTicker "Bitcoin" "BTC" 103 1000) [] [] (by decide!) with
    | ⟨posted, h1, h2, _⟩ => ⟨posted, h1, h2⟩⟩

/-- The example of the spec: from 100 with threshold 5, a fetch of 103 posts nothing and
stores 103; the next fetch of 110 posts one alert with `+7.00 to $110.00` and stores 110. -/
theorem schedulerStep_example :
    schedulerStep (bitcoinAt 103) (bitcoinWatch 100) = .ok (bitcoinWatch 103, []) ∧
    schedulerStep (bitcoinAt 110) (bitcoinWatch 103) =
      .ok (bitcoinWatch 110, [⟨"message", "C1", "[ BTC ] $+7.00 to $110.00"⟩]) := by
  decide!

/-- Values of `f64round`: an integer above `2 ^ 53` rounds to an even neighbour, a tie
goes to the even significand, the least subnormal is kept, half of it rounds to zero, and
a value of at least `2 ^ 1024 - 2 ^ 970` overflows. -/
theorem f64round_examples :
    f64round ((2 : ℚ) ^ 53 + 3) = .finite ((2 : ℚ) ^ 53 + 4) ∧
    f64round ((2 : ℚ) ^ 53 + 1) = .finite ((2 : ℚ) ^ 53) ∧
    f64round (1 / 10) = .finite (3602879701896397 / 36028797018963968) ∧
    f64round (1 / (2 : ℚ) ^ 1074) = .finite (1 / (2 : ℚ) ^ 1074) ∧
    f64round (1 / (2 : ℚ) ^ 1075) = .finite 0 ∧
    f64round (-((2 : ℚ) ^ 1024 - (2 : ℚ) ^ 970)) = .inf true ∧
    f64round ((2 : ℚ) ^ 1024 - (2 : ℚ) ^ 971) = .finite ((2 : ℚ) ^ 1024 - (2 : ℚ) ^ 971) := by
  decide!

/-- C1 as stated fails: with `lastPrice = float64(0.01)`, threshold 1 and a fetched price
`float64(1.01)`, both float64 values, `P > 0` and the exact `|P' - P|` exceeds 1, yet the
float64 difference rounds to `1.0`, which is not above `float64(1)`, and the iteration
posts nothing. -/
theorem schedulerStep_exact_delta_fails :
    f64round f64_0_01 = .finite f64_0_01 ∧ f64round f64_1_01 = .finite f64_1_01 ∧
    f64sub f64_1_01 f64_0_01 = .finite 1 ∧
    schedulerStep centProvider centWatch = .ok ({ centWatch with lastPrice := f64_1_01 }, []) ∧
    centWatch.lastPrice > 0 ∧
    |f64_1_01 - centWatch.lastPrice| > (centWatch.Threshold : ℚ) := by
  decide!

/-- C2: when the fetch for a watch succeeds with no ticker (a nil or an empty list), the
iteration does not behave as on a fetch failure: line 305 indexes the empty list, the
iteration panics with an index out of range, and the cycle stops there with every watch
from this one on left unprocessed and the process ended. -/
theorem schedulerStep_no_ticker_panics (mkt : TickersPipeline) (sym : Watch) (v : Tickers)
    (hfetch : mkt sym.Name = .ok v) (hempty : v.toList = []) :
    schedulerStep mkt sym = .error .indexOutOfRange ∧
      ∀ (key : String) (rest : WatchList),
        schedulerCycle mkt ((key, sym) :: rest) = ⟨(key, sym) :: rest, [], true⟩ := by
  have hstep : schedulerStep mkt sym = .error .indexOutOfRange := by
    unfold schedulerStep
    rw [hfetch]
    by_cases hc : v.isSome ∧ sym.lastPrice > 0
    · simp [hc, index0, hempty, bind, Except.bind]
    · simp [hc, index0, hempty, bind, Except.bind, pure, Except.pure]
  refine ⟨hstep, ?_⟩
  intro key rest
  simp [schedulerCycle, hstep]

/-- Witness of C2's theorem: a provider answering `[]` for the Bitcoin watch. -/
theorem schedulerStep_no_ticker_panics_witness :
    schedulerStep emptyProvider (bitcoinWatch 100) = .error .indexOutOfRange ∧
      ∀ (key : String) (rest : WatchList),
        schedulerCycle emptyProvider ((key, bitcoinWatch 100) :: rest) =
          ⟨(key, bitcoinWatch 100) :: rest, [], true⟩ :=
  schedulerStep_no_ticker_panics emptyProvider (bitcoinWatch 100) (some ⟨[], []⟩)
    (by decide!) (by decide!)

/-- A cycle keeps the number of watches. -/
theorem schedulerCycle_length (mkt : TickersPipeline) (wl : WatchList) :
    (schedulerCycle mkt wl).watches.length = wl.length := by
  induction wl with
  | nil => simp [schedulerCycle]
  | cons e rest ih =>
    obtain ⟨key, sym⟩ := e
    unfold schedulerCycle
    cases h : schedulerStep mkt sym with
    | error p => simp
    | ok r => simp [ih]

/-- C8: in one cycle, a watch whose fetch returns an error gets no alert and keeps its
`lastPrice` (the iteration returns it unchanged with nothing posted), and the cycle over
the registry with that watch gives every other watch what the cycle over the registry
without it gives: the same posted alerts, the same crash flag, and the same watches
afterwards, with the failing watch unchanged at its place. -/
theorem schedulerCycle_skips_failed_fetch (mkt : TickersPipeline) (before after : WatchList)
    (key : String) (sym : Watch) (hfetch : mkt sym.Name = .err) :
    schedulerStep mkt sym = .ok (sym, []) ∧
    (schedulerCycle mkt (before ++ (key, sym) :: after)).posted =
      (schedulerCycle mkt (before ++ after)).posted ∧
    (schedulerCycle mkt (before ++ (key, sym) :: after)).crashed =
      (schedulerCycle mkt (before ++ after)).crashed ∧
    (schedulerCycle mkt (before ++ (key, sym) :: after)).watches =
      (schedulerCycle mkt (before ++ after)).watches.take before.length ++
        (key, sym) :: (schedulerCycle mkt (before ++ after)).watches.drop before.length := by
  have hstep : schedulerStep mkt sym = .ok (sym, []) := by
    simp [schedulerStep, hfetch]
  refine ⟨hstep, ?_⟩
  induction before with
  | nil => simp [schedulerCycle, hstep]
  | cons e rest ih =>
    obtain ⟨k, w⟩ := e
    obtain ⟨ih1, ih2, ih3⟩ := ih
    simp only [List.cons_append, List.length_cons]
    unfold schedulerCycle
    cases h : schedulerStep mkt w with
    | error p => simp
    | ok r =>
      obtain ⟨w', msgs⟩ := r
      simp [ih1, ih2, ih3]

/-- Witness of C8: the Ether fetch fails between two Bitcoin watches. -/
theorem schedulerCycle_skips_failed_fetch_witness :
    etherDown etherWatch.Name = .err ∧
    schedulerCycle etherDown
        ([("btc", bitcoinWatch 100)] ++ ("eth", etherWatch) :: [("xbt", bitcoinWatch 109)]) =
      ⟨[("btc", bitcoinWatch 110), ("eth", etherWatch), ("xbt", bitcoinWatch 110)],
        [⟨"message", "C1", "[ BTC ] $+10.00 to $110.00"⟩], false⟩ ∧
    (schedulerCycle etherDown
        ([("btc", bitcoinWatch 100)] ++ ("eth", etherWatch) :: [("xbt", bitcoinWatch 109)])).posted =
      (schedulerCycle etherDown
        ([("btc", bitcoinWatch 100)] ++ [("xbt", bitcoinWatch 109)])).posted :=
  ⟨by decide!, by decide!,
    (schedulerCycle_skips_failed_fetch etherDown [("btc", bitcoinWatch 100)]
      [("xbt", bitcoinWatch 109)] "eth" etherWatch (by decide!)).2.1⟩

/-! ## Message handler -/

/-- C7: a four-token `watch s x` whose threshold token `x` does not parse as an integer
greater than 0 leaves the registry unchanged, writes nothing to the store, and posts the
single reply `Cannot parse threshold x`. -/
theorem watch_bad_threshold (id : String) (mkt : TickersPipeline) (wl : WatchList)
    (m : Message) (p0 s x : String)
    (htype : m.Type_ = "message") (haddr : HasPrefix m.Text ("<@" ++ id ++ ">") = true)
    (hparts : Fields m.Text = [p0, "watch", s, x])
    (hbad : ∀ t : Int, Atoi x = some t → ¬ t > 0) :
    msgF id mkt wl m =
      ⟨wl, [{ m with Text := "Cannot parse threshold " ++ x }], [], false⟩ := by
  unfold msgF msgBody
  cases hx : Atoi x with
  | none =>
    simp [htype, haddr, hparts, indexStr, hx, bind, Except.bind, pure, Except.pure]
  | some t =>
    have ht : ¬ t > 0 := hbad t hx
    simp [htype, haddr, hparts, indexStr, hx, ht, bind, Except.bind, pure, Except.pure]

/-- Witness of C7: thresholds `0`, `-3` and `abc` are all rejected. -/
theorem watch_bad_threshold_witness :
    msgF "U1" (bitcoinAt 100) [("btc", bitcoinWatch 100)]
        ⟨"message", "C1", "<@U1> watch BTC 0"⟩ =
      ⟨[("btc", bitcoinWatch 100)],
        [{ (⟨"message", "C1", "<@U1> watch BTC 0"⟩ : Message) with
            Text := "Cannot parse threshold " ++ "0" }], [], false⟩ ∧
    Atoi "-3" = some (-3) ∧ Atoi "abc" = none :=
  ⟨watch_bad_threshold "U1" (bitcoinAt 100) [("btc", bitcoinWatch 100)]
      ⟨"message", "C1", "<@U1> watch BTC 0"⟩ "<@U1>" "BTC" "0" (by decide) (by decide)
      (by decide) (by
        intro t ht
        have h0 : Atoi "0" = some 0 := by decide
        rw [h0] at ht
        cases ht
        decide),
    by decide, by decide⟩

/-! ### Map lemmas -/

theorem mapGet_mapSet_self (k : String) (w : Watch) (wl : WatchList) :
    mapGet k (mapSet k w wl) = some w := by
  induction wl with
  | nil => simp [mapSet, mapGet]
  | cons e rest ih =>
    obtain ⟨k', w'⟩ := e
    by_cases h : k' = k
    · simp [mapSet, mapGet, h]
    · simp [mapSet, mapGet, h, ih]

theorem mapGet_mapSet_ne (k k' : String) (w : Watch) (wl : WatchList) (h : k' ≠ k) :
    mapGet k' (mapSet k w wl) = mapGet k' wl := by
  induction wl with
  | nil => simp [mapSet, mapGet, Ne.symm h]
  | cons e rest ih =>
    obtain ⟨k₁, w₁⟩ := e
    by_cases h1 : k₁ = k
    · subst h1
      simp [mapSet, mapGet, Ne.symm h]
    · by_cases h2 : k₁ = k'
      · subst h2
        simp [mapSet, mapGet, h1]
      · simp [mapSet, mapGet, h1, h2, ih]

theorem mapSet_length (k : String) (w : Watch) (wl : WatchList) :
    (mapSet k w wl).length = if (mapGet k wl).isSome then wl.length else wl.length + 1 := by
  induction wl with
  | nil => simp [mapSet, mapGet]
  | cons e rest ih =>
    obtain ⟨k', w'⟩ := e
    by_cases h : k' = k
    · simp [mapSet, mapGet, h]
    · simp only [mapSet, mapGet, h, if_false, List.length_cons, ih]
      split <;> rfl

theorem mapGet_mapDelete_self (k : String) (wl : WatchList) :
    mapGet k (mapDelete k wl) = none := by
  induction wl with
  | nil => simp [mapDelete, mapGet]
  | cons e rest ih =>
    obtain ⟨k', w'⟩ := e
    by_cases h : k' = k
    · simp [mapDelete, h, ih]
    · simp [mapDelete, h, mapGet, ih]

theorem mapGet_mapDelete_ne (k k' : String) (wl : WatchList) (h : k' ≠ k) :
    mapGet k' (mapDelete k wl) = mapGet k' wl := by
  induction wl with
  | nil => simp [mapDelete, mapGet]
  | cons e rest ih =>
    obtain ⟨k₁, w₁⟩ := e
    by_cases h1 : k₁ = k
    · subst h1
      simp [mapDelete, mapGet, Ne.symm h, ih]
    · by_cases h2 : k₁ = k'
      · subst h2
        simp [mapDelete, h1, mapGet]
      · simp [mapDelete, h1, mapGet, h2, ih]

theorem mapDelete_absent (k : String) (wl : WatchList) (h : mapGet k wl = none) :
    mapDelete k wl = wl := by
  induction wl with
  | nil => simp [mapDelete]
  | cons e rest ih =>
    obtain ⟨k', w'⟩ := e
    by_cases h1 : k' = k
    · simp [mapGet, h1] at h
    · simp only [mapGet, h1, if_false] at h
      simp [mapDelete, h1, ih h]

/-! ### Handler lemmas -/

/-- The first element satisfying `p` is found by `find?`. -/
theorem find_first {α : Type} (p : α → Bool) (pre post : List α) (a : α)
    (hpre : ∀ c ∈ pre, p c = false) (ha : p a = true) :
    (pre ++ a :: post).find? p = some a := by
  induction pre with
  | nil => simp [ha]
  | cons b rest ih =>
    have hb : p b = false := hpre b (by simp)
    have hrest : ∀ c ∈ rest, p c = false := fun c hc => hpre c (by simp [hc])
    simp [List.find?, hb, ih hrest]

/-- The effect of an accepted `watch` command. -/
theorem msgF_watch (id : String) (mkt : TickersPipeline) (wl : WatchList) (m : Message)
    (p0 s tok : String) (t : Int) (v : Tickers) (pre post : List TickerData)
    (coin : TickerData)
    (htype : m.Type_ = "message") (haddr : HasPrefix m.Text ("<@" ++ id ++ ">") = true)
    (hparts : Fields m.Text = [p0, "watch", s, tok])
    (htok : Atoi tok = some t) (ht : t > 0)
    (hfetch : mkt "" = .ok v) (hlist : v.toList = pre ++ coin :: post)
    (hpre : ∀ c ∈ pre, ToLower c.Symbol ≠ ToLower s)
    (hcoin : ToLower coin.Symbol = ToLower s) :
    msgF id mkt wl m =
      ⟨mapSet (ToLower s) ⟨m.Channel, coin.Name, coin.PriceUSD, t⟩ wl, [],
        [.put (ToLower s) ⟨m.Channel, coin.Name, t⟩], false⟩ := by
  have hfind : (v.toList).find? (fun c => decide (ToLower c.Symbol = ToLower s)) = some coin := by
    rw [hlist]
    apply find_first
    · intro c hc
      simpa using hpre c hc
    · simpa using hcoin
  unfold msgF msgBody
  simp [htype, haddr, hparts, indexStr, htok, ht, watchCase, hfetch, hfind, hcoin, bind,
    Except.bind, pure, Except.pure]

/-- The effect of an `unwatch` command with a symbol token. -/
theorem msgF_unwatch (id : String) (mkt : TickersPipeline) (wl : WatchList) (m : Message)
    (p0 s : String) (more : List String)
    (htype : m.Type_ = "message") (haddr : HasPrefix m.Text ("<@" ++ id ++ ">") = true)
    (hparts : Fields m.Text = p0 :: "unwatch" :: s :: more) :
    msgF id mkt wl m = ⟨mapDelete s wl, [], [.delete s], false⟩ := by
  unfold msgF msgBody
  simp [htype, haddr, hparts, indexStr, bind, Except.bind, pure, Except.pure]

/-- The effect of a `watchlist` command. -/
theorem msgF_watchlist (id : String) (mkt : TickersPipeline) (wl : WatchList) (m : Message)
    (p0 : String) (more : List String)
    (htype : m.Type_ = "message") (haddr : HasPrefix m.Text ("<@" ++ id ++ ">") = true)
    (hparts : Fields m.Text = p0 :: "watchlist" :: more) :
    msgF id mkt wl m = ⟨wl, [{ m with Text := watchlistText wl }], [], false⟩ := by
  unfold msgF msgBody
  simp [htype, haddr, hparts, indexStr, bind, Except.bind, pure, Except.pure]

/-- The loop of the `watchlist` reply only appends to its start value. -/
theorem watchlist_fold_append (wl : WatchList) (init : String) :
    ∃ tail : String,
      wl.foldl (fun msg e => msg ++ watchEntry e.1 e.2.Threshold) init = init ++ tail := by
  induction wl generalizing init with
  | nil => exact ⟨"", by simp⟩
  | cons e rest ih =>
    obtain ⟨tail, h⟩ := ih (init ++ watchEntry e.1 e.2.Threshold)
    exact ⟨watchEntry e.1 e.2.Threshold ++ tail, by simp [List.foldl, h, String.append_assoc]⟩

/-- The loop of the `watchlist` reply writes the entry of every bound key. -/
theorem watchlist_fold_entry (wl : WatchList) (k : String) (w : Watch) (init : String)
    (h : mapGet k wl = some w) :
    ∃ pre post : String,
      wl.foldl (fun msg e => msg ++ watchEntry e.1 e.2.Threshold) init =
        init ++ pre ++ watchEntry k w.Threshold ++ post := by
  induction wl generalizing init with
  | nil => simp [mapGet] at h
  | cons e rest ih =>
    obtain ⟨k', w'⟩ := e
    by_cases hk : k' = k
    · simp only [mapGet, hk, if_true, Option.some.injEq] at h
      subst h
      subst hk
      obtain ⟨tail, ht⟩ := watchlist_fold_append rest (init ++ watchEntry k' w'.Threshold)
      exact ⟨"", tail, by simp [List.foldl, ht]⟩
    · simp only [mapGet, hk, if_false] at h
      obtain ⟨pre, post, hp⟩ := ih (init ++ watchEntry k' w'.Threshold) h
      exact ⟨watchEntry k' w'.Threshold ++ pre, post, by
        simp [List.foldl, hp, String.append_assoc]⟩

/-- C3: a four-token `watch s tok` whose threshold token parses as `t > 0`, with a
successful fetch of all tickers whose first ticker matching `s` case-insensitively is
`coin`, ends without a crash and yields the registry in which key `lower(s)` is bound to
the watch with `Channel` of the message, `Name` and `lastPrice` of `coin` and `Threshold`
`t`; every other key keeps its binding; the entry count grows by one only when the key
was absent; a second accepted `watch` of the same symbol keeps the entry count; and a
following `watchlist` reply has the form `Tickers: [ ...]` containing the entry of
`lower(s)` with threshold `t`. -/
theorem watch_binds_key (id : String) (mkt : TickersPipeline) (wl : WatchList) (m : Message)
    (p0 s tok : String) (t : Int) (v : Tickers) (pre post : List TickerData)
    (coin : TickerData)
    (htype : m.Type_ = "message") (haddr : HasPrefix m.Text ("<@" ++ id ++ ">") = true)
    (hparts : Fields m.Text = [p0, "watch", s, tok])
    (htok : Atoi tok = some t) (ht : t > 0)
    (hfetch : mkt "" = .ok v) (hlist : v.toList = pre ++ coin :: post)
    (hpre : ∀ c ∈ pre, ToLower c.Symbol ≠ ToLower s)
    (hcoin : ToLower coin.Symbol = ToLower s) :
    (msgF id mkt wl m).crashed = false ∧
    mapGet (ToLower s) (msgF id mkt wl m).watchList =
      some ⟨m.Channel, coin.Name, coin.PriceUSD, t⟩ ∧
    (∀ k : String, k ≠ ToLower s →
      mapGet k (msgF id mkt wl m).watchList = mapGet k wl) ∧
    (msgF id mkt wl m).watchList.length =
      (if (mapGet (ToLower s) wl).isSome then wl.length else wl.length + 1) ∧
    (∀ (mkt2 : TickersPipeline) (m2 : Message) (q0 tok2 : String) (t2 : Int) (v2 : Tickers)
        (pre2 post2 : List TickerData) (coin2 : TickerData),
      m2.Type_ = "message" → HasPrefix m2.Text ("<@" ++ id ++ ">") = true →
      Fields m2.Text = [q0, "watch", s, tok2] → Atoi tok2 = some t2 → t2 > 0 →
      mkt2 "" = .ok v2 → v2.toList = pre2 ++ coin2 :: post2 →
      (∀ c ∈ pre2, ToLower c.Symbol ≠ ToLower s) → ToLower coin2.Symbol = ToLower s →
      (msgF id mkt2 (msgF id mkt wl m).watchList m2).watchList.length =
        (msgF id mkt wl m).watchList.length) ∧
    (∀ (mkt3 : TickersPipeline) (m3 : Message) (q0 : String) (more : List String),
      m3.Type_ = "message" → HasPrefix m3.Text ("<@" ++ id ++ ">") = true →
      Fields m3.Text = q0 :: "watchlist" :: more →
      ∃ before after : String,
        (msgF id mkt3 (msgF id mkt wl m).watchList m3).posted =
          [{ m3 with Text := "Tickers: [ " ++ before ++ watchEntry (ToLower s) t ++ after ++
              "]" }]) := by
  have hw := msgF_watch id mkt wl m p0 s tok t v pre post coin htype haddr hparts htok ht
    hfetch hlist hpre hcoin
  rw [hw]
  refine ⟨rfl, mapGet_mapSet_self _ _ _, ?_, mapSet_length _ _ _, ?_, ?_⟩
  · intro k hk
    exact mapGet_mapSet_ne _ _ _ _ hk
  · intro mkt2 m2 q0 tok2 t2 v2 pre2 post2 coin2 h1 h2 h3 h4 h5 h6 h7 h8 h9
    rw [msgF_watch id mkt2 _ m2 q0 s tok2 t2 v2 pre2 post2 coin2 h1 h2 h3 h4 h5 h6 h7 h8 h9]
    simp [mapSet_length, mapGet_mapSet_self]
  · intro mkt3 m3 q0 more h1 h2 h3
    rw [msgF_watchlist id mkt3 _ m3 q0 more h1 h2 h3]
    obtain ⟨before, after, hfold⟩ := watchlist_fold_entry
      (mapSet (ToLower s) ⟨m.Channel, coin.Name, coin.PriceUSD, t⟩ wl) (ToLower s)
      ⟨m.Channel, coin.Name, coin.PriceUSD, t⟩ "Tickers: [ " (mapGet_mapSet_self _ _ _)
    exact ⟨before, after, by simp [watchlistText, hfold]⟩

/-- Witness of C3: `watch BTC 5` on a registry that already watches `btc`. -/
theorem watch_binds_key_witness :
    mapGet (ToLower "BTC")
        (msgF "U1" (bitcoinAt 100) [("eth", etherWatch), ("btc", bitcoinWatch 90)]
          ⟨"message", "C1", "<@U1> watch BTC 5"⟩).watchList =
      some ⟨"C1", "Bitcoin", 100, 5⟩ ∧
    msgF "U1" (bitcoinAt 100) [("eth", etherWatch), ("btc", bitcoinWatch 90)]
        ⟨"message", "C1", "<@U1> watch BTC 5"⟩ =
      ⟨[("eth", etherWatch), ("btc", bitcoinWatch 100)], [], [.put "btc" ⟨"C1", "Bitcoin", 5⟩],
        false⟩ ∧
    msgF "U1" (bitcoinAt 100) [("eth", etherWatch), ("btc", bitcoinWatch 100)]
        ⟨"message", "C1", "<@U1> watchlist"⟩ =
      ⟨[("eth", etherWatch), ("btc", bitcoinWatch 100)],
        [⟨"message", "C1", "Tickers: [ \x7b eth: 1 \x7d\x7b btc: 5 \x7d]"⟩], [], false⟩ :=
  ⟨(watch_binds_key "U1" (bitcoinAt 100) [("eth", etherWatch), ("btc", bitcoinWatch 90)]
      ⟨"message", "C1", "<@U1> watch BTC 5"⟩ "<@U1>" "BTC" "5" 5
      (some ⟨[mkTicker "Bitcoin" "BTC" 100 1000], []⟩) [] [] (mkTicker "Bitcoin" "BTC" 100 1000)
      (by decide) (by decide) (by decide) (by decide) (by decide) (by decide!) (by decide!)
      (by simp) (by decide)).2.1,
    by decide!, by decide!⟩

/-- C4: `unwatch s` deletes the key `s` as typed, not its lower-cased form: after an
accepted `watch s tok`, an `unwatch s` with `lower(s) ≠ s` leaves the watch under key
`lower(s)` in the registry, and the store is asked to delete key `s`. -/
theorem unwatch_keeps_lowercased_key (id : String) (mkt : TickersPipeline) (wl : WatchList)
    (m m2 : Message) (p0 q0 s tok : String) (t : Int) (v : Tickers)
    (pre post : List TickerData) (coin : TickerData)
    (htype : m.Type_ = "message") (haddr : HasPrefix m.Text ("<@" ++ id ++ ">") = true)
    (hparts : Fields m.Text = [p0, "watch", s, tok])
    (htok : Atoi tok = some t) (ht : t > 0)
    (hfetch : mkt "" = .ok v) (hlist : v.toList = pre ++ coin :: post)
    (hpre : ∀ c ∈ pre, ToLower c.Symbol ≠ ToLower s)
    (hcoin : ToLower coin.Symbol = ToLower s)
    (htype2 : m2.Type_ = "message") (haddr2 : HasPrefix m2.Text ("<@" ++ id ++ ">") = true)
    (hparts2 : Fields m2.Text = [q0, "unwatch", s])
    (hcase : ToLower s ≠ s) :
    mapGet (ToLower s) (msgF id mkt (msgF id mkt wl m).watchList m2).watchList =
      some ⟨m.Channel, coin.Name, coin.PriceUSD, t⟩ ∧
    (msgF id mkt (msgF id mkt wl m).watchList m2).db = [.delete s] ∧
    (msgF id mkt (msgF id mkt wl m).watchList m2).posted = [] := by
  rw [msgF_watch id mkt wl m p0 s tok t v pre post coin htype haddr hparts htok ht
    hfetch hlist hpre hcoin]
  rw [msgF_unwatch id mkt _ m2 q0 s [] htype2 haddr2 hparts2]
  refine ⟨?_, rfl, rfl⟩
  simp only []
  rw [mapGet_mapDelete_ne s (ToLower s) _ hcase, mapGet_mapSet_self]

/-- Witness of C4's theorem: `watch BTC 5` then `unwatch BTC` keeps the watch `btc`. -/
theorem unwatch_keeps_lowercased_key_witness :
    msgF "U1" (bitcoinAt 100)
        (msgF "U1" (bitcoinAt 100) [] ⟨"message", "C1", "<@U1> watch BTC 5"⟩).watchList
        ⟨"message", "C1", "<@U1> unwatch BTC"⟩ =
      ⟨[("btc", bitcoinWatch 100)], [], [.delete "BTC"], false⟩ ∧
    mapGet (ToLower "BTC")
        (msgF "U1" (bitcoinAt 100)
          (msgF "U1" (bitcoinAt 100) [] ⟨"message", "C1", "<@U1> watch BTC 5"⟩).watchList
          ⟨"message", "C1", "<@U1> unwatch BTC"⟩).watchList =
      some ⟨"C1", "Bitcoin", 100, 5⟩ :=
  ⟨by decide!,
    (unwatch_keeps_lowercased_key "U1" (bitcoinAt 100) []
      ⟨"message", "C1", "<@U1> watch BTC 5"⟩ ⟨"message", "C1", "<@U1> unwatch BTC"⟩
      "<@U1>" "<@U1>" "BTC" "5" 5
      (some ⟨[mkTicker "Bitcoin" "BTC" 100 1000], []⟩) [] [] (mkTicker "Bitcoin" "BTC" 100 1000)
      (by decide) (by decide) (by decide) (by decide) (by decide) (by decide!) (by decide!)
      (by simp) (by decide) (by decide) (by decide) (by decide) (by decide)).1⟩

/-! ## Ranking -/

/-- Sorting keeps the number of elements. -/
theorem sortSlice_length {α : Type} (less : α → α → Bool) (l : List α) :
    (sortSlice less l).length = l.length := by
  simp [sortSlice, List.length_insertionSort]

/-- The slice expression of `rankCoins` panics when `min(limit, 30)` is negative or above
the capacity. -/
theorem rankCoins_panics (mkt : TickersPipeline) (coins : Slice TickerData) (limit : Int)
    (hfetch : mkt "" = .ok (some coins)) (hne : coins.elems ≠ [])
    (hbad : limit < 0 ∨
      ((coins.elems.length + coins.spare.length : Nat) : Int) < minInt limit 30) :
    rankCoins mkt limit = .error .sliceBoundsOutOfRange := by
  have hpos : coins.elems.length > 0 := List.length_pos.mpr hne
  have hcond : ¬ (0 ≤ minInt limit 30 ∧
      minInt limit 30 ≤ ((coins.elems.length + coins.spare.length : Nat) : Int)) := by
    rcases hbad with h | h
    · have : minInt limit 30 = limit := by
        unfold minInt
        rw [if_pos (by omega)]
      omega
    · omega
  unfold rankCoins
  rw [hfetch]
  simp only [hpos, if_true, sliceTo, sortSlice_length, bind, Except.bind]
  rw [if_neg hcond]

/-- C5: `rankCoins(n)` does not return normally for every integer `n`: on a non-empty
fetched list it panics with a slice bound out of range when `n < 0`, and when
`min(n, 30)` exceeds the capacity of the fetched slice. -/
theorem rankCoins_out_of_range (mkt : TickersPipeline) (coins : Slice TickerData)
    (limit : Int) (hfetch : mkt "" = .ok (some coins)) (hne : coins.elems ≠ [])
    (hbad : limit < 0 ∨
      ((coins.elems.length + coins.spare.length : Nat) : Int) < minInt limit 30) :
    rankCoins mkt limit = .error .sliceBoundsOutOfRange ∧
      ¬ ∃ text : String, rankCoins mkt limit = .ok text := by
  have h := rankCoins_panics mkt coins limit hfetch hne hbad
  refine ⟨h, ?_⟩
  rintro ⟨text, ht⟩
  rw [h] at ht
  cases ht

/-- Witness of C5's theorem: `rankCoins(-1)` on a one-ticker list. -/
theorem rankCoins_out_of_range_witness :
    rankCoins (bitcoinAt 100) (-1) = .error .sliceBoundsOutOfRange ∧
      ¬ ∃ text : String, rankCoins (bitcoinAt 100) (-1) = .ok text :=
  rankCoins_out_of_range (bitcoinAt 100) ⟨[mkTicker "Bitcoin" "BTC" 100 1000], []⟩ (-1)
    (by decide!) (by simp) (Or.inl (by decide))

/-- C6: not every failure is caught: a `rank` command whose argument parses as `n` with
`n < 0`, or with `min(n, 30)` above the capacity of the fetched slice, makes `rankCoins`
panic inside the goroutine of `rank`, which has no deferred `recv`; no help text is
posted and the process ends. -/
theorem rank_panic_crashes (id : String) (mkt : TickersPipeline) (wl : WatchList)
    (m : Message) (p0 tok : String) (more : List String) (n : Int)
    (coins : Slice TickerData)
    (htype : m.Type_ = "message") (haddr : HasPrefix m.Text ("<@" ++ id ++ ">") = true)
    (hparts : Fields m.Text = p0 :: "rank" :: tok :: more)
    (htok : Atoi tok = some n)
    (hfetch : mkt "" = .ok (some coins)) (hne : coins.elems ≠ [])
    (hbad : n < 0 ∨ ((coins.elems.length + coins.spare.length : Nat) : Int) < minInt n 30) :
    msgF id mkt wl m = ⟨wl, [], [], true⟩ := by
  have h := rankCoins_panics mkt coins n hfetch hne hbad
  unfold msgF msgBody
  simp [htype, haddr, hparts, indexStr, htok, h, bind, Except.bind, pure, Except.pure]

/-- Witness of C6's theorem: the message `rank -1`. -/
theorem rank_panic_crashes_witness :
    msgF "U1" (bitcoinAt 100) [("btc", bitcoinWatch 100)]
        ⟨"message", "C1", "<@U1> rank -1"⟩ =
      ⟨[("btc", bitcoinWatch 100)], [], [], true⟩ :=
  rank_panic_crashes "U1" (bitcoinAt 100) [("btc", bitcoinWatch 100)]
    ⟨"message", "C1", "<@U1> rank -1"⟩ "<@U1>" "-1" [] (-1)
    ⟨[mkTicker "Bitcoin" "BTC" 100 1000], []⟩
    (by decide) (by decide) (by decide) (by decide) (by decide!) (by simp)
    (Or.inl (by decide))

/-! ## Quotes -/

/-- Appending to the start value commutes with concatenation. -/
theorem foldl_append_init (l : List String) (init : String) :
    l.foldl (· ++ ·) init = init ++ concat l := by
  induction l generalizing init with
  | nil => simp [concat]
  | cons a rest ih =>
    simp only [concat, List.foldl_cons]
    rw [ih (init ++ a), ih ("" ++ a)]
    simp [concat, String.append_assoc]

theorem concat_cons (a : String) (l : List String) : concat (a :: l) = a ++ concat l := by
  simp only [concat, List.foldl_cons]
  rw [foldl_append_init]
  simp [concat]

/-- The loop of `getQuote` (lines 328-334) sets `found` when a ticker is printed and
appends the lines of the printed tickers in order. -/
theorem getQuote_loop (sym : List String) (coins : List TickerData) (st : Bool × String) :
    coins.foldl
        (fun (st : Bool × String) coin =>
          if ToLower coin.Symbol ∈ sym.map ToLower then (true, st.2 ++ quoteLine coin) else st)
        st =
      (st.1 || !(quoteHits coins sym).isEmpty,
        st.2 ++ concat ((quoteHits coins sym).map quoteLine)) := by
  induction coins generalizing st with
  | nil => simp [quoteHits, concat]
  | cons c rest ih =>
    by_cases hc : ToLower c.Symbol ∈ sym.map ToLower
    · have hq : quoteHits (c :: rest) sym = c :: quoteHits rest sym := by
        unfold quoteHits
        exact List.filter_cons_of_pos (decide_eq_true hc)
      rw [List.foldl_cons, if_pos hc, ih, hq]
      simp [concat_cons, String.append_assoc]
    · have hq : quoteHits (c :: rest) sym = quoteHits rest sym := by
        unfold quoteHits
        exact List.filter_cons_of_neg (by rw [decide_eq_false hc]; simp)
      rw [List.foldl_cons, if_neg hc, ih, hq]

/-- Among tickers with distinct keys, exactly one has a key that occurs. -/
theorem filter_length_of_nodup {α β : Type} [DecidableEq β] (f : α → β) (a : β) (l : List α)
    (hnd : (l.map f).Nodup) :
    (l.filter (fun c => decide (f c = a))).length = if ∃ c ∈ l, f c = a then 1 else 0 := by
  induction l with
  | nil => simp
  | cons b rest ih =>
    rw [List.map_cons, List.nodup_cons] at hnd
    obtain ⟨hb, hrest⟩ := hnd
    by_cases hba : f b = a
    · have hnone : ∀ c ∈ rest, ¬ f c = a := by
        intro c hc hca
        exact hb (List.mem_map.mpr ⟨c, hc, by rw [hca, hba]⟩)
      have hfil : rest.filter (fun c => decide (f c = a)) = [] := by
        rw [List.filter_eq_nil_iff]
        intro c hc
        simpa using hnone c hc
      have hex : ∃ c ∈ b :: rest, f c = a := ⟨b, by simp, hba⟩
      simp [List.filter_cons, hba, hfil, hex]
    · have hiff : (∃ c ∈ b :: rest, f c = a) ↔ ∃ c ∈ rest, f c = a := by
        constructor
        · rintro ⟨c, hc, hca⟩
          rcases List.mem_cons.mp hc with h | h
          · exact absurd (h ▸ hca) hba
          · exact ⟨c, h, hca⟩
        · rintro ⟨c, hc, hca⟩
          exact ⟨c, List.mem_cons_of_mem _ hc, hca⟩
      simp only [List.filter_cons, hba, decide_False, Bool.false_eq_true, if_false, ih hrest]
      by_cases hex : ∃ c ∈ rest, f c = a
      · rw [if_pos hex, if_pos (hiff.mpr hex)]
      · rw [if_neg hex, if_neg (fun h => hex (hiff.mp h))]

/-- C9 as stated fails: with two fetched tickers whose symbols are `BTC` and `btc`, the
single requested symbol `btc` gets two formatted lines, not exactly one. -/
theorem getQuote_two_lines_one_symbol :
    getQuote sharedSymbolProvider ["btc"] =
        "BTC $100.00, update 1H: 0.00%, update 24H: 0.00%\n" ++
        "btc $3.00, update 1H: 0.00%, update 24H: 0.00%\n" ∧
    matchedSymbols sharedSymbol ["btc"] = ["btc"] ∧
    lineCount (getQuote sharedSymbolProvider ["btc"]) ≠
      (matchedSymbols sharedSymbol ["btc"]).length := by
  decide!

/-- C9, amended: on a non-empty fetched list `getQuote` returns, in fetched order, exactly
one formatted line for each fetched ticker whose symbol equals some requested symbol
case-insensitively, and the `not found` message listing the requested symbols when there
is no such ticker; a requested symbol therefore gets one line per ticker that matches it,
which is exactly one line for a matched symbol and none for an unmatched one when the
fetched symbols are pairwise distinct case-insensitively; on a fetch error, a nil list or
an empty list it returns `n/a`. -/
theorem getQuote_lines (mkt : TickersPipeline) (sym : List String) :
    (∀ coins : Slice TickerData, mkt "" = .ok (some coins) → coins.elems ≠ [] →
      getQuote mkt sym =
        (if quoteHits coins.elems sym = [] then "'" ++ fmtV1 sym ++ "' not found"
         else concat ((quoteHits coins.elems sym).map quoteLine)) ∧
      (∀ c : TickerData, c ∈ quoteHits coins.elems sym ↔
        c ∈ coins.elems ∧ ∃ s ∈ sym, ToLower c.Symbol = ToLower s) ∧
      (∀ s ∈ sym,
        (quoteHits coins.elems sym).filter (fun c => decide (ToLower c.Symbol = ToLower s)) =
          coins.elems.filter (fun c => decide (ToLower c.Symbol = ToLower s))) ∧
      ((coins.elems.map fun c => ToLower c.Symbol).Nodup → ∀ s ∈ sym,
        ((quoteHits coins.elems sym).filter
            (fun c => decide (ToLower c.Symbol = ToLower s))).length =
          if ∃ c ∈ coins.elems, ToLower c.Symbol = ToLower s then 1 else 0)) ∧
    ((mkt "" = .err ∨ mkt "" = .ok none ∨ ∃ spare, mkt "" = .ok (some ⟨[], spare⟩)) →
      getQuote mkt sym = "n/a") := by
  have hsame : ∀ (coins : List TickerData), ∀ s ∈ sym,
      (quoteHits coins sym).filter (fun c => decide (ToLower c.Symbol = ToLower s)) =
        coins.filter (fun c => decide (ToLower c.Symbol = ToLower s)) := by
    intro coins s hs
    unfold quoteHits
    rw [List.filter_filter]
    apply List.filter_congr
    intro c _
    by_cases hcs : ToLower c.Symbol = ToLower s
    · have : ToLower c.Symbol ∈ sym.map ToLower := by
        rw [hcs]
        exact List.mem_map_of_mem _ hs
      have hd := decide_eq_true this
      simp only [hd, Bool.and_true]
    · simp [hcs]
  refine ⟨?_, ?_⟩
  · intro coins hfetch hne
    refine ⟨?_, ?_, hsame coins.elems, ?_⟩
    · have hpos : coins.elems.length > 0 := List.length_pos.mpr hne
      unfold getQuote
      rw [hfetch]
      simp only [hpos, if_true, getQuote_loop]
      by_cases hh : quoteHits coins.elems sym = []
      · simp [hh]
      · have : (quoteHits coins.elems sym).isEmpty = false := by
          cases hq : quoteHits coins.elems sym with
          | nil => exact absurd hq hh
          | cons a l => rfl
        simp [hh, this]
    · intro c
      simp only [quoteHits, List.mem_filter, decide_eq_true_eq, List.mem_map]
      constructor
      · rintro ⟨hc, s, hs, hsc⟩
        exact ⟨hc, s, hs, hsc.symm⟩
      · rintro ⟨hc, s, hs, hsc⟩
        exact ⟨hc, s, hs, hsc.symm⟩
    · intro hnd s hs
      rw [hsame coins.elems s hs]
      exact filter_length_of_nodup (fun c => ToLower c.Symbol) (ToLower s) coins.elems hnd
  · rintro (h | h | ⟨spare, h⟩) <;> simp [getQuote, h]

/-- Witness of C9: the request `["btc", "eth"]` (and an unmatched `zzz`) against three
tickers with distinct symbols. -/
theorem getQuote_lines_witness :
    getQuote threeCoinsProvider ["btc", "eth", "zzz"] =
        "BTC $100.00, update 1H: 0.00%, update 24H: 0.00%\n" ++
        "ETH $10.00, update 1H: 0.00%, update 24H: 0.00%\n" ∧
    getQuote threeCoinsProvider ["zzz", "Yyy"] = "'[zzz Yyy]' not found" ∧
    getQuote threeCoinsProvider ["btc", "eth", "zzz"] =
      (if quoteHits threeCoins ["btc", "eth", "zzz"] = [] then
        "'" ++ fmtV1 ["btc", "eth", "zzz"] ++ "' not found"
       else concat ((quoteHits threeCoins ["btc", "eth", "zzz"]).map quoteLine)) :=
  ⟨by decide!, by decide!,
    ((getQuote_lines threeCoinsProvider ["btc", "eth", "zzz"]).1 ⟨threeCoins, []⟩
      (by decide!) (by decide!)).1⟩

/-! ## Further properties of the code -/

/-- Within bounds, `rankCoins(n)` returns normally: for `0 ≤ n` with `min(n, 30)` at most
the number of fetched tickers, the reply is one row per ticker for the first `min(n, 30)`
tickers of the fetched list sorted by non-increasing market capitalisation. -/
theorem rankCoins_top (mkt : TickersPipeline) (coins : Slice TickerData) (limit : Int)
    (hfetch : mkt "" = .ok (some coins)) (hne : coins.elems ≠ [])
    (h0 : 0 ≤ limit) (hlen : minInt limit 30 ≤ (coins.elems.length : Int)) :
    ∃ rows : List TickerData,
      rankCoins mkt limit = .ok (concat (rows.map rankRow)) ∧
      rows.length = (minInt limit 30).toNat ∧
      rows.Pairwise (fun a b => a.MarketCapUSD ≥ b.MarketCapUSD) ∧
      (∀ r ∈ rows, r ∈ coins.elems) ∧
      ∃ sorted : List TickerData, sorted.Perm coins.elems ∧
        sorted.Pairwise (fun a b => a.MarketCapUSD ≥ b.MarketCapUSD) ∧
        rows = sorted.take (minInt limit 30).toNat := by
  have hpos : coins.elems.length > 0 := List.length_pos.mpr hne
  have hmin0 : 0 ≤ minInt limit 30 := by
    unfold minInt
    split <;> omega
  have hsl : (sortSlice (fun l r => decide (l.MarketCapUSD > r.MarketCapUSD))
      coins.elems).length = coins.elems.length := sortSlice_length _ _
  have hperm : (sortSlice (fun l r => decide (l.MarketCapUSD > r.MarketCapUSD))
      coins.elems).Perm coins.elems := by
    unfold sortSlice
    exact List.perm_insertionSort _ _
  have hsorted : (sortSlice (fun l r => decide (l.MarketCapUSD > r.MarketCapUSD))
      coins.elems).Pairwise (fun a b => a.MarketCapUSD ≥ b.MarketCapUSD) := by
    haveI : IsTotal TickerData
        (fun a b => decide (b.MarketCapUSD > a.MarketCapUSD) = false) :=
      ⟨fun a b => by
        simp only [decide_eq_false_iff_not, not_lt]
        exact le_total _ _⟩
    haveI : IsTrans TickerData
        (fun a b => decide (b.MarketCapUSD > a.MarketCapUSD) = false) :=
      ⟨fun a b c hab hbc => by
        simp only [decide_eq_false_iff_not, not_lt, gt_iff_lt] at hab hbc ⊢
        exact le_trans hbc hab⟩
    have h := List.sorted_insertionSort
      (fun a b : TickerData => decide (b.MarketCapUSD > a.MarketCapUSD) = false) coins.elems
    unfold sortSlice
    refine List.Pairwise.imp ?_ h
    intro a b hab
    simpa using hab
  refine ⟨(sortSlice (fun l r => decide (l.MarketCapUSD > r.MarketCapUSD))
    coins.elems).take (minInt limit 30).toNat, ?_, ?_, ?_, ?_, ?_⟩
  · have hcond : 0 ≤ minInt limit 30 ∧
        minInt limit 30 ≤ ((coins.elems.length + coins.spare.length : Nat) : Int) := by
      constructor
      · exact hmin0
      · push_cast
        omega
    have htake : ((sortSlice (fun l r => decide (l.MarketCapUSD > r.MarketCapUSD))
        coins.elems) ++ coins.spare).take (minInt limit 30).toNat =
        (sortSlice (fun l r => decide (l.MarketCapUSD > r.MarketCapUSD))
          coins.elems).take (minInt limit 30).toNat := by
      apply List.take_append_of_le_length
      rw [hsl]
      omega
    unfold rankCoins
    rw [hfetch]
    simp only [hpos, if_true, sliceTo, sortSlice_length, bind, Except.bind]
    rw [if_pos hcond]
    simp only [htake, pure, Except.pure, concat, List.foldl_map]
  · rw [List.length_take, hsl]
    omega
  · exact hsorted.sublist (List.take_sublist _ _)
  · intro r hr
    exact hperm.subset (List.mem_of_mem_take hr)
  · exact ⟨_, hperm, hsorted, rfl⟩

/-- On a fetch error, a nil list or an empty list `rankCoins` returns `n/a`. -/
theorem rankCoins_na (mkt : TickersPipeline) (limit : Int)
    (h : mkt "" = .err ∨ mkt "" = .ok none ∨ ∃ spare, mkt "" = .ok (some ⟨[], spare⟩)) :
    rankCoins mkt limit = .ok "n/a" := by
  rcases h with h | h | ⟨spare, h⟩ <;> simp [rankCoins, h, pure, Except.pure]

/-- A panic raised in the handler itself is recovered and answered with the help text. -/
theorem msgF_recovers (id : String) (mkt : TickersPipeline) (wl : WatchList) (m : Message)
    (p : Panic) (h : msgBody id mkt wl m = .error p) :
    msgF id mkt wl m = ⟨wl, [helpF m], [], false⟩ := by
  simp [msgF, h]

/-- Handling a message ends the process only through the goroutine of `rank`. -/
theorem msgF_crash_only_rank (id : String) (mkt : TickersPipeline) (wl : WatchList)
    (m : Message) (h : (msgF id mkt wl m).crashed = true) :
    (Fields m.Text)[1]? = some "rank" := by
  unfold msgF msgBody at h
  by_cases hc : m.Type_ = "message" ∧ HasPrefix m.Text ("<@" ++ id ++ ">") = true
  · rw [if_pos hc] at h
    cases h1 : (Fields m.Text)[1]? with
    | none => simp [indexStr, h1, bind, Except.bind] at h
    | some cmd =>
      simp only [indexStr, h1, bind, Except.bind] at h
      by_cases hw : cmd = "watch"
      · exfalso
        rw [if_pos hw] at h
        by_cases hl : (Fields m.Text).length ≠ 4
        · simp [hl, pure, Except.pure] at h
        · rw [if_neg hl] at h
          cases h3 : (Fields m.Text)[3]? with
          | none => simp [h3] at h
          | some p3 =>
            cases h2 : (Fields m.Text)[2]? with
            | none => simp [h3, h2] at h
            | some p2 =>
              simp only [h3, h2, pure, Except.pure] at h
              cases ha : Atoi p3 with
              | none => simp [ha] at h
              | some r =>
                by_cases hr : r > 0
                · simp only [ha, hr, if_true, watchCase] at h
                  cases hf : mkt "" with
                  | err => simp [hf] at h
                  | ok v =>
                    simp only [hf] at h
                    cases hfind : v.toList.find?
                        (fun c => decide (ToLower c.Symbol = ToLower p2)) with
                    | none => simp [hfind] at h
                    | some coin => simp [hfind] at h
                · simp [ha, hr] at h
      · rw [if_neg hw] at h
        by_cases hu : cmd = "unwatch"
        · exfalso
          rw [if_pos hu] at h
          cases h2 : (Fields m.Text)[2]? with
          | none => simp [h2] at h
          | some p2 => simp [h2, pure, Except.pure] at h
        · rw [if_neg hu] at h
          by_cases hwl : cmd = "watchlist"
          · simp [hwl, pure, Except.pure] at h
          · rw [if_neg hwl] at h
            by_cases hco : cmd = "coin"
            · simp [hco, pure, Except.pure] at h
            · rw [if_neg hco] at h
              by_cases hrk : cmd = "rank"
              · rw [hrk]
              · simp [hrk, pure, Except.pure] at h
  · simp [hc, pure, Except.pure] at h

/-- An `unwatch s` removes exactly the key `s`: no binding of `s` remains, every other
key keeps its binding, nothing is posted, and the registry is unchanged when `s` was
absent. -/
theorem unwatch_removes_typed_key (id : String) (mkt : TickersPipeline) (wl : WatchList)
    (m : Message) (p0 s : String) (more : List String)
    (htype : m.Type_ = "message") (haddr : HasPrefix m.Text ("<@" ++ id ++ ">") = true)
    (hparts : Fields m.Text = p0 :: "unwatch" :: s :: more) :
    mapGet s (msgF id mkt wl m).watchList = none ∧
    (∀ k : String, k ≠ s → mapGet k (msgF id mkt wl m).watchList = mapGet k wl) ∧
    (msgF id mkt wl m).posted = [] ∧ (msgF id mkt wl m).crashed = false ∧
    (mapGet s wl = none → (msgF id mkt wl m).watchList = wl) := by
  rw [msgF_unwatch id mkt wl m p0 s more htype haddr hparts]
  exact ⟨mapGet_mapDelete_self _ _, fun k hk => mapGet_mapDelete_ne _ _ _ hk, rfl, rfl,
    fun h => mapDelete_absent _ _ h⟩

end SlackCoins
